import Mathlib

/-!
Verification development for the voxel-terrain repository (`mc`).

The Rust sources under `src/` are shallowly embedded below:

* `src/world/blocks.rs`      — `Block`, `BlockType`, `Direction`
* `src/world/coordinates.rs` — `Coordinates` and its `go` step operation
* `src/world/chunk.rs`       — `Chunk` storage/addressing, terrain
  generation (`generate_stack` and `insert_into_chunk_stack`), the mesher
  (`generate_mesh`, `is_face_visible`, `get_ao_attributes`)
* `src/world/world_loader.rs` — `visible_chunk_range_uw`, `get_buffer`

Machine integers (`i32`, `u32`, `usize`) are modelled as `ℤ`/`ℕ`; the
values manipulated by the embedded code stay far away from any wrap-around
boundary, and `as usize` / saturating casts are made explicit where they
matter.  `f64` noise arithmetic is modelled over `ℚ` with the only
non-rational operation, `f64::powf`, abstracted as a function parameter
`powf : ℚ → ℚ → ℚ`; none of the proved properties depend on its values.
Rust panics are modelled as `Option`/`Except` failure values.
-/

namespace MC

/-! ## Blocks and directions (src/world/blocks.rs) -/

inductive BlockType where
  | SOLID
  | INVISIBLE
  | TRANSPARENT
deriving DecidableEq, Repr

inductive Block where
  | AIR
  | STONE
  | GRASS
  | DIRT
  | SAND
  | GRAVEL
  | ANDESITE
  | SNOW
  | WATER
deriving DecidableEq, Repr

/-- `Block::texture_index`.  The `Block::AIR` arm panics in the source
(`"{:?} doesn't feature a texture"`); the panic is modelled as `none`. -/
def Block.texture_index : Block → Option ℕ
  | .AIR => none
  | .STONE => some 0
  | .GRASS => some 1
  | .DIRT => some 2
  | .SAND => some 3
  | .GRAVEL => some 4
  | .ANDESITE => some 5
  | .SNOW => some 6
  | .WATER => some 6

/-- `Block::get_block_type`. -/
def Block.get_block_type : Block → BlockType
  | .AIR => .INVISIBLE
  | .WATER => .TRANSPARENT
  | _ => .SOLID

/-- `Block::is_solid`. -/
def Block.is_solid (b : Block) : Bool :=
  match b.get_block_type with
  | .SOLID => true
  | _ => false

/-- The 6 face directions, with the source's `repr(u8)` numeric encoding. -/
inductive Direction where
  | NegX
  | X
  | NegY
  | Y
  | NegZ
  | Z
deriving DecidableEq, Repr

/-- The numeric value assigned by `#[repr(u8)]` in the source
(`NegX = 0, X = 1, NegY = 2, Y = 3, NegZ = 4, Z = 5`). -/
def Direction.val : Direction → ℕ
  | .NegX => 0
  | .X => 1
  | .NegY => 2
  | .Y => 3
  | .NegZ => 4
  | .Z => 5

/-! ## Coordinates (src/world/coordinates.rs) -/

structure Coordinates where
  x : ℤ
  y : ℤ
  z : ℤ
deriving DecidableEq, Repr

def Coordinates.new (x y z : ℤ) : Coordinates := ⟨x, y, z⟩

/-- `Coordinates::go`: `dimension = (direction as usize) / 2`,
`coefficient = if (direction as u8) & 1 == 1 { 1 } else { -1 }`, and the
selected component is incremented by `distance * coefficient`. -/
def Coordinates.go (c : Coordinates) (direction : Direction) (distance : ℤ) : Coordinates :=
  let dimension := direction.val / 2
  let coefficient : ℤ := if direction.val &&& 1 = 1 then 1 else -1
  if dimension = 0 then { c with x := c.x + distance * coefficient }
  else if dimension = 1 then { c with y := c.y + distance * coefficient }
  else { c with z := c.z + distance * coefficient }

/-! ## Chunk storage and addressing (src/world/chunk.rs) -/

def CHUNK_WIDTH_BITS : ℕ := 5

def CHUNK_WIDTH : ℕ := 2 ^ CHUNK_WIDTH_BITS

/-- `CHUNK_WIDTH_I32`: the chunk width as a signed value. -/
def CHUNK_WIDTH_I32 : ℤ := (CHUNK_WIDTH : ℤ)

def CHUNK_WIDTH_P : ℕ := CHUNK_WIDTH + 2

def CHUNK_WIDTH_P_I32 : ℤ := (CHUNK_WIDTH_P : ℤ)

def VERTICAL_CHUNK_COUNT : ℕ := 8

def WORLD_HEIGHT : ℕ := CHUNK_WIDTH * VERTICAL_CHUNK_COUNT

def MIN_HEIGHT : ℕ := 8

def SEA_LEVEL : ℕ := 24

theorem CHUNK_WIDTH_eq : CHUNK_WIDTH = 32 := rfl

theorem CHUNK_WIDTH_P_eq : CHUNK_WIDTH_P = 34 := rfl

theorem WORLD_HEIGHT_eq : WORLD_HEIGHT = 256 := rfl

/-- A chunk's backing store.  The source keeps a flat boxed slice of
`(CHUNK_WIDTH + 2)^3` `Block` values; it is modelled as a total map from
flat indices to blocks (every access the embedded code performs is proved
to stay below `(CHUNK_WIDTH + 2)^3`, see `C7`). -/
structure Chunk where
  data : ℕ → Block

/-- The flat-index computation shared by `Chunk::at` and `Chunk::at_mut`:
`((x + 1) * CHUNK_WIDTH_P + y + 1) * CHUNK_WIDTH_P + z + 1`. -/
def chunkIndex (x y z : ℤ) : ℤ :=
  ((x + 1) * CHUNK_WIDTH_P_I32 + y + 1) * CHUNK_WIDTH_P_I32 + z + 1

/-- `Chunk::validate_chunk_coordinates`: each coordinate must lie in the
inclusive range `-1..=CHUNK_WIDTH_I32`. -/
def validate_chunk_coordinates (x y z : ℤ) : Bool :=
  decide ((-1 ≤ x ∧ x ≤ CHUNK_WIDTH_I32) ∧ (-1 ≤ y ∧ y ≤ CHUNK_WIDTH_I32) ∧
    (-1 ≤ z ∧ z ≤ CHUNK_WIDTH_I32))

/-- `Chunk::at`.  The out-of-range panic is modelled as `none`. -/
def Chunk.at (c : Chunk) (x y z : ℤ) : Option Block :=
  if validate_chunk_coordinates x y z then
    some (c.data (chunkIndex x y z).toNat)
  else
    none

/-- `Chunk::at_mut`, used as a store of `b` into the cell: the out-of-range
panic is modelled as `none`, a successful write returns the updated chunk. -/
def Chunk.at_mut (c : Chunk) (x y z : ℤ) (b : Block) : Option Chunk :=
  if validate_chunk_coordinates x y z then
    some { data := Function.update c.data (chunkIndex x y z).toNat b }
  else
    none

/-- Total write wrapper used by the embedded generation code; the `none`
(panic) branch of `at_mut` is unreachable for every coordinate the
generator passes, so the fallback value is never consulted there. -/
def Chunk.write (c : Chunk) (x y z : ℤ) (b : Block) : Chunk :=
  (c.at_mut x y z b).getD c

/-- `Chunk::at_coords`. -/
def Chunk.at_coords (c : Chunk) (coords : Coordinates) : Option Block :=
  c.at coords.x coords.y coords.z

/-- Total read used by the embedded mesher: every access `generate_mesh`
and `get_ao_attributes` perform on interior voxels lies in `[-1, 32]`
on each axis, so the `Block.AIR` fallback is never consulted there. -/
def Chunk.atD (c : Chunk) (x y z : ℤ) : Block :=
  (c.at x y z).getD Block.AIR

def Chunk.at_coordsD (c : Chunk) (coords : Coordinates) : Block :=
  c.atD coords.x coords.y coords.z

/-! ## Mesher (src/world/chunk.rs: generate_mesh, is_face_visible,
get_ao_attributes) and the packed face records
(src/renderer/vertex_buffer.rs). -/

structure QuadInstance where
  attributes : ℕ
  ao_attributes : ℕ
deriving DecidableEq, Repr

structure TransparentQuadInstance where
  attributes : ℕ
deriving DecidableEq, Repr

/-- `Chunk::is_face_visible`. -/
def is_face_visible (block adjacent_block : BlockType) : Bool :=
  match block with
  | .INVISIBLE => false
  | .SOLID =>
    match adjacent_block with
    | .SOLID => false
    | .TRANSPARENT | .INVISIBLE => true
  | .TRANSPARENT =>
    match adjacent_block with
    | .SOLID | .TRANSPARENT => false
    | .INVISIBLE => true

/-- The `directions` vector built by `Chunk::generate_mesh` for one voxel:
six `is_face_visible` tests against the neighbours, pushed in the fixed
order `NegX, X, NegY, Y, NegZ, Z`. -/
def visibleDirections (c : Chunk) (x y z : ℤ) : List Direction :=
  let block_type := (c.atD x y z).get_block_type
  (if is_face_visible block_type (c.atD (x - 1) y z).get_block_type then [Direction.NegX] else []) ++
  (if is_face_visible block_type (c.atD (x + 1) y z).get_block_type then [Direction.X] else []) ++
  (if is_face_visible block_type (c.atD x (y - 1) z).get_block_type then [Direction.NegY] else []) ++
  (if is_face_visible block_type (c.atD x (y + 1) z).get_block_type then [Direction.Y] else []) ++
  (if is_face_visible block_type (c.atD x y (z - 1)).get_block_type then [Direction.NegZ] else []) ++
  (if is_face_visible block_type (c.atD x y (z + 1)).get_block_type then [Direction.Z] else [])

/-- The cross-direction lookup table of `Chunk::get_ao_attributes`. -/
def cross_directions : Direction → Direction × Direction
  | .NegX => (.Y, .Z)
  | .X => (.Z, .Y)
  | .NegY => (.Z, .X)
  | .Y => (.X, .Z)
  | .NegZ => (.X, .Y)
  | .Z => (.Y, .X)

/-- The per-corner occlusion value computed inside the `for i in 0..4`
loop of `Chunk::get_ao_attributes`. -/
def aoCornerValue (c : Chunk) (block : Coordinates) (direction : Direction) (i : ℕ) : ℕ :=
  let cd := cross_directions direction
  let air_block := block.go direction 1
  let step_0 : ℤ := if i < 2 then -1 else 1
  let step_1 : ℤ := if i &&& 1 = 1 then 1 else -1
  let side_1 := (c.at_coordsD (air_block.go cd.1 step_0)).is_solid
  let side_2 := (c.at_coordsD (air_block.go cd.2 step_1)).is_solid
  let corner := (c.at_coordsD ((air_block.go cd.1 step_0).go cd.2 step_1)).is_solid
  if side_1 && side_2 then 3 else side_1.toNat + side_2.toNat + corner.toNat

/-- `Chunk::get_ao_attributes`: the four corner values are OR-ed into
`factor`, corner `i` shifted left by `2 * i`. -/
def Chunk.get_ao_attributes (c : Chunk) (block : Coordinates) (direction : Direction) : ℕ :=
  (List.range 4).foldl (fun factor i => factor ||| (aoCornerValue c block direction i <<< (2 * i))) 0

/-- The `common_packed_bits` bitfield of `Chunk::generate_mesh`.  The
`texture_index` panic on `Block::AIR` cannot fire on this path (the voxel
is not `INVISIBLE`), modelled by defaulting the absent value to 0. -/
def commonPackedBits (c : Chunk) (x y z : ℤ) : ℕ :=
  x.toNat ||| (y.toNat <<< CHUNK_WIDTH_BITS) ||| (z.toNat <<< (CHUNK_WIDTH_BITS * 2)) |||
    (((c.atD x y z).texture_index.getD 0) <<< (CHUNK_WIDTH_BITS * 3))

/-- The face records `Chunk::generate_mesh` emits for a single voxel:
nothing for an `INVISIBLE` voxel; one `QuadInstance` per visible direction
for a `SOLID` voxel; one `TransparentQuadInstance` per visible direction
for a `TRANSPARENT` voxel. -/
def voxelInstances (c : Chunk) (x y z : ℤ) :
    List QuadInstance × List TransparentQuadInstance :=
  match (c.atD x y z).get_block_type with
  | .INVISIBLE => ([], [])
  | .SOLID =>
    ((visibleDirections c x y z).map fun direction =>
      { attributes := commonPackedBits c x y z ||| (direction.val <<< (CHUNK_WIDTH_BITS * 3 + 8)),
        ao_attributes := c.get_ao_attributes (Coordinates.new x y z) direction }, [])
  | .TRANSPARENT =>
    ([], (visibleDirections c x y z).map fun direction =>
      { attributes := commonPackedBits c x y z ||| (direction.val <<< (CHUNK_WIDTH_BITS * 3 + 8)) })

/-- `Chunk::generate_mesh`: iterate the interior voxels in the source's
`x`/`z`/`y` loop order, appending each voxel's face records. -/
def Chunk.generate_mesh (c : Chunk) :
    List QuadInstance × List TransparentQuadInstance :=
  ((List.range CHUNK_WIDTH).flatMap fun x =>
    (List.range CHUNK_WIDTH).flatMap fun z =>
      (List.range CHUNK_WIDTH).map fun y => ((x : ℤ), (y : ℤ), (z : ℤ))).foldl
    (fun acc xyz =>
      let vi := voxelInstances c xyz.1 xyz.2.1 xyz.2.2
      (acc.1 ++ vi.1, acc.2 ++ vi.2))
    ([], [])

/-! ## Terrain generation (src/world/chunk.rs: generate_stack,
insert_into_chunk_stack).

The `f64` noise pipeline is modelled over `ℚ`.  The seeded Simplex noise
source is an arbitrary function `noise : ℚ → ℚ → ℚ` (the source only
assumes `NoiseFn<f64, 2>`), and the single non-rational operation
`f64::powf` is a further arbitrary parameter `powf : ℚ → ℚ → ℚ`; all the
properties proved below hold for every choice of both. -/

structure ChunkStack where
  u : ℤ
  w : ℤ
  /-- The source's `[Chunk; VERTICAL_CHUNK_COUNT]`, as a total map; only
  indices `< VERTICAL_CHUNK_COUNT` are ever read or written. -/
  chunks : ℕ → Chunk
  /-- `height_map: [u32; CHUNK_WIDTH * CHUNK_WIDTH]`, as a total map from
  the flat index `z * CHUNK_WIDTH + x`. -/
  height_map : ℕ → ℕ

/-- Read chunk `v` of a stack at local coordinates `(x, y, z)`. -/
def ChunkStack.read (s : ChunkStack) (v : ℕ) (x y z : ℤ) : Option Block :=
  (s.chunks v).at x y z

/-- The continuous noise-space coordinate of a cell:
`uw + (cell as f64 / CHUNK_WIDTH as f64) - 0.5`. -/
def noiseCoord (uwComponent cell : ℤ) : ℚ :=
  (uwComponent : ℚ) + (cell : ℚ) / (CHUNK_WIDTH : ℚ) - 0.5

/-- The exponent of `generate_stack`, line
`height = height.powf(2.5 * (2.0 + noise.get([nx / 10.0, nx / 10.0])));`
— note that the source passes `nx / 10.0` as *both* components of the
sample point (`nz` is unused here). -/
def heightExponent (noise : ℚ → ℚ → ℚ) (nx nz : ℚ) : ℚ :=
  2.5 * (2 + noise (nx / 10) (nx / 10))

/-- The per-cell height computation of `generate_stack` (lines 69–77):
three octaves summed, normalised by `1.75 * 2.0`, biased by `+0.5`,
raised to `heightExponent`, scaled by `WORLD_HEIGHT - MIN_HEIGHT - 1`,
rounded (`as u32` saturates negatives to 0) and offset by `MIN_HEIGHT`. -/
def heightAt (powf noise : ℚ → ℚ → ℚ) (nx nz : ℚ) : ℕ :=
  let height0 := noise (0.3 * nx) (0.3 * nz) + 0.5 * noise nx nz + 0.25 * noise (3 * nx) (3 * nz)
  let height1 := height0 / (1.75 * 2)
  let height2 := height1 + 0.5
  let height3 := powf height2 (heightExponent noise nx nz)
  let height4 := height3 * ((WORLD_HEIGHT : ℚ) - (MIN_HEIGHT : ℚ) - 1)
  (round height4).toNat + MIN_HEIGHT

/-- The elementary store `*chunk_stack.chunks[v].at_mut(x, y, z) = block`. -/
def stackWrite (s : ChunkStack) (v : ℕ) (x y z : ℤ) (block : Block) : ChunkStack :=
  { s with chunks := Function.update s.chunks v ((s.chunks v).write x y z block) }

/-- `Chunk::insert_into_chunk_stack`.  `y = global_y % CHUNK_WIDTH`,
`v = global_y / CHUNK_WIDTH`; the voxel is stored into chunk `v`, and the
write is mirrored into the adjacent chunk's halo when it lands on a
vertical chunk boundary.  The source indexes `chunks[v]` unchecked (a
panic for `global_y ≥ WORLD_HEIGHT`); that branch is modelled as the
identity and is unreachable for the heights the theorems below consider. -/
def insert_into_chunk_stack (s : ChunkStack) (x : ℤ) (global_y : ℕ) (z : ℤ)
    (block : Block) : ChunkStack :=
  let y := global_y % CHUNK_WIDTH
  let v := global_y / CHUNK_WIDTH
  if v < VERTICAL_CHUNK_COUNT then
    let s1 := stackWrite s v x (y : ℤ) z block
    if y = 0 ∧ 0 < v then
      stackWrite s1 (v - 1) x CHUNK_WIDTH_I32 z block
    else if y = CHUNK_WIDTH - 1 ∧ v < VERTICAL_CHUNK_COUNT - 1 then
      stackWrite s1 (v + 1) x (-1) z block
    else s1
  else s

/-- One contiguous `(range, block)` entry of the `block_array` vector:
global heights `a, a+1, …, a+n-1`, all mapped to `block`. -/
def rangeWrites (a n : ℕ) (block : Block) : List (ℕ × Block) :=
  (List.range n).map fun j => (a + j, block)

/-- The `block_array` of `generate_stack` for a cell of height `height`,
flattened to `(global_y, block)` pairs in write order: Stone on
`0..height`, then either Sand at `height` and Water on
`height+1..SEA_LEVEL` (when `height < SEA_LEVEL`) or Grass at `height`. -/
def columnWrites (height : ℕ) : List (ℕ × Block) :=
  rangeWrites 0 height .STONE ++
    (if height < SEA_LEVEL then
      rangeWrites height 1 .SAND ++ rangeWrites (height + 1) (SEA_LEVEL - (height + 1)) .WATER
    else
      rangeWrites height 1 .GRASS)

/-- Execute all of a cell's voxel writes. -/
def fillCell (x z : ℤ) (height : ℕ) (s : ChunkStack) : ChunkStack :=
  (columnWrites height).foldl (fun s w => insert_into_chunk_stack s x w.1 z w.2) s

/-- The body of `generate_stack`'s per-cell loop: compute the height from
the noise, run the voxel writes, and record the height into `height_map`
when the cell is an interior one. -/
def processCell (powf noise : ℚ → ℚ → ℚ) (uw : ℤ × ℤ) (xz : ℤ × ℤ)
    (s : ChunkStack) : ChunkStack :=
  let nx := noiseCoord uw.1 xz.1
  let nz := noiseCoord uw.2 xz.2
  let height := heightAt powf noise nx nz
  let s := fillCell xz.1 xz.2 height s
  if (0 ≤ xz.2 ∧ xz.2 < CHUNK_WIDTH_I32) ∧ (0 ≤ xz.1 ∧ xz.1 < CHUNK_WIDTH_I32) then
    let hm := Function.update s.height_map (xz.2.toNat * CHUNK_WIDTH + xz.1.toNat) height
    { s with height_map := hm }
  else s

/-- The cell visit order of `generate_stack`: `x` outer, `z` inner, both
from `-1` to `CHUNK_WIDTH` inclusive. -/
def cellList : List (ℤ × ℤ) :=
  (List.range (CHUNK_WIDTH + 2)).flatMap fun i : ℕ =>
    (List.range (CHUNK_WIDTH + 2)).map fun k : ℕ => ((i : ℤ) - 1, (k : ℤ) - 1)

/-- The all-`AIR` stack `generate_stack` starts from. -/
def initialStack (uw : ℤ × ℤ) : ChunkStack :=
  { u := uw.1, w := uw.2, chunks := fun _ => { data := fun _ => Block.AIR },
    height_map := fun _ => 0 }

/-- `Chunk::generate_stack`. -/
def generate_stack (powf noise : ℚ → ℚ → ℚ) (uw : ℤ × ℤ) : ChunkStack :=
  cellList.foldl (fun s xz => processCell powf noise uw xz s) (initialStack uw)

/-! ## WorldLoader queries (src/world/world_loader.rs) -/

/-- Inclusive integer range `a..=b` as a list, in increasing order. -/
def intRangeIncl (a b : ℤ) : List ℤ :=
  (List.range (b + 1 - a).toNat).map fun i : ℕ => a + (i : ℤ)

/-- Half-open integer range `a..b` as a list, in increasing order. -/
def intRangeExcl (a b : ℤ) : List ℤ :=
  (List.range (b - a).toNat).map fun i : ℕ => a + (i : ℤ)

/-- `WorldLoader::visible_chunk_range_uw`, as a function of the loader's
`chunk_view_distance` and the camera's chunk column `(camera_u, camera_w)`:
the centre column first, then for each `radius` in `1..=view_distance`
the two `x` rows at `z = ±radius` (interleaved per `x`), then the two `z`
columns at `x = ±radius` for `z` in `-(radius-1)..radius`. -/
def visible_chunk_range_uw (chunk_view_distance : ℕ) (camera_u camera_w : ℤ) :
    List (ℤ × ℤ) :=
  [(camera_u, camera_w)] ++
    (List.range chunk_view_distance).flatMap fun r =>
      let radius : ℤ := (r : ℤ) + 1
      ((intRangeIncl (-radius) radius).flatMap fun x =>
        [(x + camera_u, radius + camera_w), (x + camera_u, -radius + camera_w)]) ++
      ((intRangeExcl (-(radius - 1)) radius).flatMap fun z =>
        [(radius + camera_u, z + camera_w), (-radius + camera_u, z + camera_w)])

/-- The part of the `WorldLoader` state `get_buffer` consults: the
`buffered_chunks: HashMap<ChunkUW, Vec<ChunkBuffers>>` cache.  The
`ChunkBuffers` values hold opaque GPU handles, so they are kept as an
arbitrary type `β`. -/
structure BufferedState (β : Type) where
  buffered_chunks : ℤ × ℤ → Option (List β)

/-- `WorldLoader::get_buffer`.  On a cache hit for the column, the source
runs `chunk_stack_buffer.unwrap().get(v as usize).unwrap()`: the second
`unwrap` panics (modelled as `Except.error ()`) when the level index falls
outside the stored vector.  `v as usize` reinterprets the signed level, so
a negative `v` becomes a huge index (`2^64 + v` on a 64-bit target). -/
def get_buffer {β : Type} (st : BufferedState β) (uvw : ℤ × ℤ × ℤ) :
    Except Unit (Option β) :=
  let (u, v, w) := uvw
  match st.buffered_chunks (u, w) with
  | some chunk_buffers =>
    match chunk_buffers.get? ((v % 2 ^ 64).toNat) with
    | some cb => .ok (some cb)
    | none => .error ()
  | none => .ok none

/-! ## Specification-side helper definitions used by the theorems below. -/

instance : Fintype Direction :=
  Fintype.ofList [.NegX, .X, .NegY, .Y, .NegZ, .Z] fun d => by cases d <;> decide

instance : Fintype BlockType :=
  Fintype.ofList [.SOLID, .INVISIBLE, .TRANSPARENT] fun t => by cases t <;> decide

/-- Local coordinate 0, used to instantiate interior-voxel theorems. -/
def finW0 : Fin CHUNK_WIDTH := ⟨0, by norm_num [CHUNK_WIDTH, CHUNK_WIDTH_BITS]⟩

instance : Fintype Block :=
  Fintype.ofList [.AIR, .STONE, .GRASS, .DIRT, .SAND, .GRAVEL, .ANDESITE, .SNOW, .WATER]
    fun b => by cases b <;> decide

/-- The block a generated column of height `height` holds at global height
`global_y`: Stone below `height`, Sand/Water or Grass at and above it per
the `SEA_LEVEL` comparison, Air everywhere else. -/
def expectedBlock (height global_y : ℕ) : Block :=
  if global_y < height then .STONE
  else if height < SEA_LEVEL then
    if global_y = height then .SAND
    else if global_y < SEA_LEVEL then .WATER
    else .AIR
  else if global_y = height then .GRASS
  else .AIR

/-- The unique global height whose `insert_into_chunk_stack` write (direct
or mirrored) lands on position `(v, y)` of a chunk stack: local `y` in
`[0, CHUNK_WIDTH)` is chunk `v`'s interior, `y = CHUNK_WIDTH` is the halo
mirror of chunk `v+1`'s bottom plane, `y = -1` (for `v ≥ 1`) the halo
mirror of chunk `v-1`'s top plane. -/
def targetGy (v : ℕ) (y : ℤ) : Option ℕ :=
  if 0 ≤ y ∧ y < CHUNK_WIDTH_I32 then some (CHUNK_WIDTH * v + y.toNat)
  else if y = CHUNK_WIDTH_I32 then some (CHUNK_WIDTH * (v + 1))
  else if y = -1 ∧ 1 ≤ v then some (CHUNK_WIDTH * v - 1)
  else none

/-- What a fully generated stack holds at position `(v, y)` of a cell with
terrain height `height`: the block of the targeted global height, Air on
never-written positions (chunk 0's bottom halo). -/
def stackCellValue (height : ℕ) (v : ℕ) (y : ℤ) : Block :=
  match targetGy v y with
  | some gy => expectedBlock height gy
  | none => .AIR

/-- Chebyshev distance between two column keys. -/
def chebDist (p c : ℤ × ℤ) : ℕ :=
  max (p.1 - c.1).natAbs (p.2 - c.2).natAbs

/-! ## C10 — texture index table -/

/-- C10: `Block::texture_index` is not injective on non-air blocks: Snow
and Water both map to 6; every other pair of distinct non-air blocks gets
distinct indices; querying Air is a fatal invariant violation (modelled as
`none`). -/
theorem C10_texture_index_snow_water_collide :
    Block.texture_index .SNOW = some 6 ∧ Block.texture_index .WATER = some 6 ∧
    Block.texture_index .AIR = none ∧
    ∀ b b' : Block, b.texture_index = b'.texture_index →
      b = b' ∨ (b = .SNOW ∧ b' = .WATER) ∨ (b = .WATER ∧ b' = .SNOW) := by
  refine ⟨rfl, rfl, rfl, ?_⟩
  intro b b' h
  cases b <;> cases b' <;> simp_all [Block.texture_index]

/-- Witness for C10 at the concrete colliding pair. -/
theorem C10_witness :
    Block.texture_index .SNOW = Block.texture_index .WATER ∧
    (Block.SNOW = Block.WATER ∨ (Block.SNOW = .SNOW ∧ Block.WATER = .WATER) ∨
      (Block.SNOW = .WATER ∧ Block.WATER = .SNOW)) :=
  ⟨rfl, C10_texture_index_snow_water_collide.2.2.2 .SNOW .WATER rfl⟩

/-! ## C5 — the steepness-noise sample point -/

/-- C5 (code bug in the source): the exponent is *not*
`2.5 * (2 + noise (nx/10) (nz/10))` — the source passes `nx / 10.0` as
both components of the sample point.  Concretely, with the noise function
returning its second coordinate, at column `(0, 10)` cell `(16, 16)`
(noise coordinates `nx = 0`, `nz = 10`) the code computes `5` while the
claimed expression is `7.5`. -/
theorem C5_exponent_samples_nx_twice :
    heightExponent (fun _ b => b) (noiseCoord 0 16) (noiseCoord 10 16) ≠
      2.5 * (2 + (fun _ b => (b : ℚ)) (noiseCoord 0 16 / 10) (noiseCoord 10 16 / 10)) := by
  norm_num [heightExponent, noiseCoord, CHUNK_WIDTH, CHUNK_WIDTH_BITS]

/-! ## C7 — chunk addressing bounds -/

/-- C7: `Chunk::at` (and `at_mut`) fail fast exactly when some coordinate
lies outside `[-1, CHUNK_WIDTH]`; for in-range coordinates `at` returns
the element at flat index `((x+1)*(W+2)+y+1)*(W+2)+z+1`, and that index
always lies inside the `(W+2)^3`-element backing array. -/
theorem C7_at_validates_and_stays_in_bounds (c : Chunk) (x y z : ℤ) (b : Block) :
    (validate_chunk_coordinates x y z = true ↔
      (-1 ≤ x ∧ x ≤ 32) ∧ (-1 ≤ y ∧ y ≤ 32) ∧ (-1 ≤ z ∧ z ≤ 32)) ∧
    (c.at x y z = none ↔ ¬((-1 ≤ x ∧ x ≤ 32) ∧ (-1 ≤ y ∧ y ≤ 32) ∧ (-1 ≤ z ∧ z ≤ 32))) ∧
    (c.at_mut x y z b = none ↔ ¬((-1 ≤ x ∧ x ≤ 32) ∧ (-1 ≤ y ∧ y ≤ 32) ∧ (-1 ≤ z ∧ z ≤ 32))) ∧
    ((-1 ≤ x ∧ x ≤ 32) ∧ (-1 ≤ y ∧ y ≤ 32) ∧ (-1 ≤ z ∧ z ≤ 32) →
      c.at x y z = some (c.data (chunkIndex x y z).toNat) ∧
      chunkIndex x y z = ((x + 1) * 34 + y + 1) * 34 + z + 1 ∧
      0 ≤ chunkIndex x y z ∧ chunkIndex x y z < 34 ^ 3) := by
  have hvalid : validate_chunk_coordinates x y z = true ↔
      (-1 ≤ x ∧ x ≤ 32) ∧ (-1 ≤ y ∧ y ≤ 32) ∧ (-1 ≤ z ∧ z ≤ 32) := by
    rw [validate_chunk_coordinates, decide_eq_true_eq, CHUNK_WIDTH_I32, CHUNK_WIDTH,
      CHUNK_WIDTH_BITS]
    norm_num
  have hidx : chunkIndex x y z = ((x + 1) * 34 + y + 1) * 34 + z + 1 := by
    rw [chunkIndex, CHUNK_WIDTH_P_I32, CHUNK_WIDTH_P, CHUNK_WIDTH, CHUNK_WIDTH_BITS]
    norm_num
  refine ⟨hvalid, ?_, ?_, ?_⟩
  · constructor
    · intro hnone h
      rw [Chunk.at, if_pos (hvalid.mpr h)] at hnone
      exact Option.noConfusion hnone
    · intro h
      rw [Chunk.at, if_neg fun hv => h (hvalid.mp hv)]
  · constructor
    · intro hnone h
      rw [Chunk.at_mut, if_pos (hvalid.mpr h)] at hnone
      exact Option.noConfusion hnone
    · intro h
      rw [Chunk.at_mut, if_neg fun hv => h (hvalid.mp hv)]
  · intro h
    refine ⟨by rw [Chunk.at, if_pos (hvalid.mpr h)], hidx, ?_, ?_⟩ <;> rw [hidx] <;>
      [skip; rw [show ((34:ℤ)^3) = 39304 by norm_num]] <;>
      obtain ⟨⟨h1, h2⟩, ⟨h3, h4⟩, h5, h6⟩ := h <;> nlinarith

/-- Witness for C7's in-range branch at `(0, 0, 0)`. -/
theorem C7_witness :
    ((-1 ≤ (0:ℤ) ∧ (0:ℤ) ≤ 32) ∧ (-1 ≤ (0:ℤ) ∧ (0:ℤ) ≤ 32) ∧ (-1 ≤ (0:ℤ) ∧ (0:ℤ) ≤ 32)) ∧
    (Chunk.at ⟨fun _ => Block.AIR⟩ 0 0 0 =
        some ((fun _ => Block.AIR) (chunkIndex 0 0 0).toNat) ∧
      chunkIndex 0 0 0 = ((0 + 1) * 34 + 0 + 1) * 34 + 0 + 1 ∧
      0 ≤ chunkIndex 0 0 0 ∧ chunkIndex 0 0 0 < 34 ^ 3) :=
  ⟨by norm_num,
    (C7_at_validates_and_stays_in_bounds ⟨fun _ => Block.AIR⟩ 0 0 0 Block.AIR).2.2.2
      (by norm_num)⟩

/-! ## C8 — get_buffer -/

/-- C8 counterexample: `get_buffer` *can* fail.  With column `(0, 0)`
buffered at all `VERTICAL_CHUNK_COUNT` levels, querying level `v = 8`
runs `.get(8).unwrap()` on the 8-element vector and panics
(`Except.error`), instead of returning an absent value. -/
theorem C8_counterexample :
    get_buffer ⟨fun p => if p = ((0 : ℤ), (0 : ℤ)) then some (List.replicate 8 ()) else none⟩
      (0, 8, 0) = .error () := by
  rfl

/-- C8 as amended: `get_buffer` is a pure lookup that returns `none` when
the column is not buffered, and returns the cached buffer of level `v`
when the column is buffered and `v` (an `i32`) indexes into the stored
vector; for a buffered column with `v` outside the vector it panics. -/
theorem C8_get_buffer_lookup {β : Type} (st : BufferedState β) (u v w : ℤ) :
    (st.buffered_chunks (u, w) = none → get_buffer st (u, v, w) = .ok none) ∧
    (∀ l : List β, st.buffered_chunks (u, w) = some l → 0 ≤ v → v < 2 ^ 31 →
      v.toNat < l.length → get_buffer st (u, v, w) = .ok (l.get? v.toNat)) := by
  constructor
  · intro h
    simp [get_buffer, h]
  · intro l hl h0 h31 hlen
    have hmod : v % 2 ^ 64 = v := Int.emod_eq_of_lt h0 (by norm_num; omega)
    simp only [get_buffer, hl, hmod]
    rcases hget : l.get? v.toNat with _ | cb
    · rw [List.get?_eq_none] at hget
      omega
    · rfl

/-- Witness for C8's amended statement on a concrete one-level cache. -/
theorem C8_witness :
    ((fun p => if p = ((0 : ℤ), (0 : ℤ)) then some [()] else none) ((0 : ℤ), (0 : ℤ)) =
        some [()] ∧ (0 : ℤ) ≤ 0 ∧ (0 : ℤ) < 2 ^ 31 ∧ (0 : ℤ).toNat < [()].length) ∧
    get_buffer ⟨fun p => if p = ((0 : ℤ), (0 : ℤ)) then some [()] else none⟩ (0, 0, 0) =
      .ok ([()].get? (0 : ℤ).toNat) :=
  ⟨⟨by norm_num, by norm_num, by norm_num, by norm_num⟩,
    (C8_get_buffer_lookup ⟨fun p => if p = ((0 : ℤ), (0 : ℤ)) then some [()] else none⟩ 0 0 0).2
      [()] (by norm_num) (by norm_num) (by norm_num) (by norm_num)⟩

/-! ## C3 — ambient-occlusion corner values and packing -/

/-- Decoding four 2-bit values OR-ed together at bit offsets 0, 2, 4, 6. -/
theorem ao_pack_decode_aux (a b c d : Fin 4) :
    ((((0 ||| (a : ℕ) <<< (2 * 0)) ||| (b : ℕ) <<< (2 * 1)) ||| (c : ℕ) <<< (2 * 2)) |||
        (d : ℕ) <<< (2 * 3)) / 4 ^ 0 % 4 = a ∧
    ((((0 ||| (a : ℕ) <<< (2 * 0)) ||| (b : ℕ) <<< (2 * 1)) ||| (c : ℕ) <<< (2 * 2)) |||
        (d : ℕ) <<< (2 * 3)) / 4 ^ 1 % 4 = b ∧
    ((((0 ||| (a : ℕ) <<< (2 * 0)) ||| (b : ℕ) <<< (2 * 1)) ||| (c : ℕ) <<< (2 * 2)) |||
        (d : ℕ) <<< (2 * 3)) / 4 ^ 2 % 4 = c ∧
    ((((0 ||| (a : ℕ) <<< (2 * 0)) ||| (b : ℕ) <<< (2 * 1)) ||| (c : ℕ) <<< (2 * 2)) |||
        (d : ℕ) <<< (2 * 3)) / 4 ^ 3 % 4 = d ∧
    ((((0 ||| (a : ℕ) <<< (2 * 0)) ||| (b : ℕ) <<< (2 * 1)) ||| (c : ℕ) <<< (2 * 2)) |||
        (d : ℕ) <<< (2 * 3)) < 256 := by
  revert a b c d
  decide

/-- The `factor` accumulated by `get_ao_attributes` is the OR of the four
shifted corner values. -/
theorem get_ao_attributes_eq (c : Chunk) (block : Coordinates) (direction : Direction) :
    c.get_ao_attributes block direction =
      (((0 ||| aoCornerValue c block direction 0 <<< (2 * 0)) |||
        aoCornerValue c block direction 1 <<< (2 * 1)) |||
        aoCornerValue c block direction 2 <<< (2 * 2)) |||
        aoCornerValue c block direction 3 <<< (2 * 3) := rfl

/-- Each corner's occlusion value is at most 3. -/
theorem aoCornerValue_le_three (c : Chunk) (block : Coordinates) (direction : Direction)
    (i : ℕ) : aoCornerValue c block direction i ≤ 3 :=
  have h : ∀ b1 b2 b3 : Bool,
      (if b1 && b2 then 3 else b1.toNat + b2.toNat + b3.toNat) ≤ 3 := by decide
  h _ _ _

/-- C3: for each corner `i` of a face, with step signs
`(s0, s1) = (-1,-1), (-1,+1), (+1,-1), (+1,+1)` for `i = 0..3`, the
occlusion value is 3 when both side neighbours of the air cell are solid
and `side1 + side2 + corner` otherwise; every corner value lies in
`[0, 3]`; and the four 2-bit values are packed into `ao_attributes` with
corner `i` at bit offset `2 * i`, so `ao_attributes < 256`. -/
theorem C3_ao_corner_values_packed (c : Chunk) (block : Coordinates) (direction : Direction)
    (i : Fin 4) :
    let cd := cross_directions direction
    let air_block := block.go direction 1
    let s0 : ℤ := if (i : ℕ) < 2 then -1 else 1
    let s1 : ℤ := if (i : ℕ) &&& 1 = 1 then 1 else -1
    let side1 := (c.at_coordsD (air_block.go cd.1 s0)).is_solid
    let side2 := (c.at_coordsD (air_block.go cd.2 s1)).is_solid
    let corner := (c.at_coordsD ((air_block.go cd.1 s0).go cd.2 s1)).is_solid
    let occlusion : ℕ := if side1 && side2 then 3 else side1.toNat + side2.toNat + corner.toNat
    c.get_ao_attributes block direction / 4 ^ (i : ℕ) % 4 = occlusion ∧
    occlusion ≤ 3 ∧ c.get_ao_attributes block direction < 256 := by
  have h0 := aoCornerValue_le_three c block direction 0
  have h1 := aoCornerValue_le_three c block direction 1
  have h2 := aoCornerValue_le_three c block direction 2
  have h3 := aoCornerValue_le_three c block direction 3
  have key := ao_pack_decode_aux ⟨aoCornerValue c block direction 0, by omega⟩
    ⟨aoCornerValue c block direction 1, by omega⟩
    ⟨aoCornerValue c block direction 2, by omega⟩
    ⟨aoCornerValue c block direction 3, by omega⟩
  rw [get_ao_attributes_eq]
  fin_cases i
  · exact ⟨key.1, aoCornerValue_le_three c block direction 0, key.2.2.2.2⟩
  · exact ⟨key.2.1, aoCornerValue_le_three c block direction 1, key.2.2.2.2⟩
  · exact ⟨key.2.2.1, aoCornerValue_le_three c block direction 2, key.2.2.2.2⟩
  · exact ⟨key.2.2.2.1, aoCornerValue_le_three c block direction 3, key.2.2.2.2⟩

/-! ## C2 — face visibility -/

/-- A unit step of `Coordinates::go` in each direction. -/
theorem go_unit (x y z : ℤ) :
    (Coordinates.new x y z).go .NegX 1 = ⟨x - 1, y, z⟩ ∧
    (Coordinates.new x y z).go .X 1 = ⟨x + 1, y, z⟩ ∧
    (Coordinates.new x y z).go .NegY 1 = ⟨x, y - 1, z⟩ ∧
    (Coordinates.new x y z).go .Y 1 = ⟨x, y + 1, z⟩ ∧
    (Coordinates.new x y z).go .NegZ 1 = ⟨x, y, z - 1⟩ ∧
    (Coordinates.new x y z).go .Z 1 = ⟨x, y, z + 1⟩ := by
  refine ⟨?_, ?_, ?_, ?_, ?_, ?_⟩ <;>
    simp [Coordinates.go, Coordinates.new, Direction.val, Coordinates.mk.injEq] <;> omega

/-- Membership in a six-fold append of direction singletons guarded by
boolean conditions. -/
theorem direction_mem_append (b1 b2 b3 b4 b5 b6 : Bool) (d : Direction) :
    (d ∈ (if b1 then [Direction.NegX] else ([] : List Direction)) ++
        (if b2 then [Direction.X] else []) ++ (if b3 then [Direction.NegY] else []) ++
        (if b4 then [Direction.Y] else []) ++ (if b5 then [Direction.NegZ] else []) ++
        (if b6 then [Direction.Z] else [])) ↔
      (match d with
        | .NegX => b1 | .X => b2 | .NegY => b3 | .Y => b4 | .NegZ => b5 | .Z => b6) = true := by
  cases d <;> revert b1 b2 b3 b4 b5 b6 <;> decide

/-- A direction is in the mesher's `directions` vector for a voxel exactly
when `is_face_visible` accepts the voxel's block type against the
neighbour one step along that direction. -/
theorem mem_visibleDirections (c : Chunk) (x y z : ℤ) (d : Direction) :
    d ∈ visibleDirections c x y z ↔
      is_face_visible (c.atD x y z).get_block_type
        (c.at_coordsD ((Coordinates.new x y z).go d 1)).get_block_type = true := by
  obtain ⟨e1, e2, e3, e4, e5, e6⟩ := go_unit x y z
  cases d
  case NegX =>
    rw [e1]
    simp only [visibleDirections, Chunk.at_coordsD]
    exact direction_mem_append _ _ _ _ _ _ _
  case X =>
    rw [e2]
    simp only [visibleDirections, Chunk.at_coordsD]
    exact direction_mem_append _ _ _ _ _ _ _
  case NegY =>
    rw [e3]
    simp only [visibleDirections, Chunk.at_coordsD]
    exact direction_mem_append _ _ _ _ _ _ _
  case Y =>
    rw [e4]
    simp only [visibleDirections, Chunk.at_coordsD]
    exact direction_mem_append _ _ _ _ _ _ _
  case NegZ =>
    rw [e5]
    simp only [visibleDirections, Chunk.at_coordsD]
    exact direction_mem_append _ _ _ _ _ _ _
  case Z =>
    rw [e6]
    simp only [visibleDirections, Chunk.at_coordsD]
    exact direction_mem_append _ _ _ _ _ _ _

/-- C2: for every chunk, interior voxel and direction, the mesher emits a
face for that voxel/direction exactly when the face-visibility rule holds
(a Solid face against a Transparent or Invisible neighbour, a Transparent
face against an Invisible neighbour, never for an Invisible voxel); in
particular a Solid voxel whose 6 neighbours are all Solid emits zero face
records. -/
theorem C2_face_visibility (c : Chunk) (x y z : Fin CHUNK_WIDTH) (d : Direction) :
    let xi : ℤ := (x : ℕ)
    let yi : ℤ := (y : ℕ)
    let zi : ℤ := (z : ℕ)
    let bt := (c.atD xi yi zi).get_block_type
    let nt := (c.at_coordsD ((Coordinates.new xi yi zi).go d 1)).get_block_type
    (d ∈ visibleDirections c xi yi zi ↔
      (bt = .SOLID ∧ (nt = .TRANSPARENT ∨ nt = .INVISIBLE)) ∨
      (bt = .TRANSPARENT ∧ nt = .INVISIBLE)) ∧
    (bt = .SOLID →
      (∀ d' : Direction,
        (c.at_coordsD ((Coordinates.new xi yi zi).go d' 1)).get_block_type = .SOLID) →
      voxelInstances c xi yi zi = ([], [])) := by
  intro xi yi zi bt nt
  have hrule : ∀ a b : BlockType,
      (is_face_visible a b = true ↔
        (a = .SOLID ∧ (b = .TRANSPARENT ∨ b = .INVISIBLE)) ∨
        (a = .TRANSPARENT ∧ b = .INVISIBLE)) := by decide
  constructor
  · rw [mem_visibleDirections]
    exact hrule _ _
  · intro hbt hall
    have hbt' : (c.atD xi yi zi).get_block_type = BlockType.SOLID := hbt
    have hnil : visibleDirections c xi yi zi = [] := by
      rw [List.eq_nil_iff_forall_not_mem]
      intro d'
      rw [mem_visibleDirections, hbt', hall d']
      decide
    simp [voxelInstances, hbt', hnil]

/-- Witness for C2's all-solid-neighbourhood scenario on an all-Stone
chunk. -/
theorem C2_witness :
    ((Chunk.atD ⟨fun _ => Block.STONE⟩ ((finW0 : ℕ) : ℤ) ((finW0 : ℕ) : ℤ)
        ((finW0 : ℕ) : ℤ)).get_block_type = .SOLID ∧
      (∀ d' : Direction,
        ((⟨fun _ => Block.STONE⟩ : Chunk).at_coordsD
          ((Coordinates.new ((finW0 : ℕ) : ℤ) ((finW0 : ℕ) : ℤ)
            ((finW0 : ℕ) : ℤ)).go d' 1)).get_block_type = .SOLID)) ∧
    voxelInstances ⟨fun _ => Block.STONE⟩ ((finW0 : ℕ) : ℤ)
      ((finW0 : ℕ) : ℤ) ((finW0 : ℕ) : ℤ) = ([], []) :=
  ⟨⟨by decide, by decide⟩,
    (C2_face_visibility ⟨fun _ => Block.STONE⟩ finW0 finW0 finW0 .NegX).2
      (by decide) (by decide)⟩

/-! ## C6 — expanding-ring visible column enumeration -/

theorem count_pair_cons (p q : ℤ × ℤ) (l : List (ℤ × ℤ)) :
    (q :: l).count p = l.count p + if p = q then 1 else 0 := by
  rw [List.count_cons]
  by_cases h : p = q
  · simp [h]
  · simp [h, Ne.symm h]

/-- Occurrence count in one horizontal row pair of a ring: entries
`(x + cu, ±r + cw)` for `x = a, …, a + n - 1`. -/
theorem count_row_pairs (p : ℤ × ℤ) (cu cw a r : ℤ) (n : ℕ) (hr : 1 ≤ r) :
    (((List.range n).map fun i : ℕ => a + (i : ℤ)).flatMap fun x =>
        [(x + cu, r + cw), (x + cu, -r + cw)]).count p =
      if a ≤ p.1 - cu ∧ p.1 - cu < a + n ∧ (p.2 - cw = r ∨ p.2 - cw = -r) then 1 else 0 := by
  induction n with
  | zero =>
    simp only [List.range_zero, List.map_nil, List.flatMap_nil, List.count_nil]
    split_ifs with h
    · exfalso
      omega
    · rfl
  | succ n ih =>
    rw [List.range_succ, List.map_append, List.flatMap_append, List.count_append, ih]
    simp only [List.map_cons, List.map_nil, List.flatMap_cons, List.flatMap_nil,
      List.append_nil]
    rw [count_pair_cons, count_pair_cons, List.count_nil]
    simp only [Prod.ext_iff]
    push_cast
    split_ifs <;> omega

/-- Occurrence count in one vertical column pair of a ring: entries
`(±r + cu, z + cw)` for `z = a, …, a + n - 1`. -/
theorem count_col_pairs (p : ℤ × ℤ) (cu cw a r : ℤ) (n : ℕ) (hr : 1 ≤ r) :
    (((List.range n).map fun i : ℕ => a + (i : ℤ)).flatMap fun z =>
        [(r + cu, z + cw), (-r + cu, z + cw)]).count p =
      if a ≤ p.2 - cw ∧ p.2 - cw < a + n ∧ (p.1 - cu = r ∨ p.1 - cu = -r) then 1 else 0 := by
  induction n with
  | zero =>
    simp only [List.range_zero, List.map_nil, List.flatMap_nil, List.count_nil]
    split_ifs with h
    · exfalso
      omega
    · rfl
  | succ n ih =>
    rw [List.range_succ, List.map_append, List.flatMap_append, List.count_append, ih]
    simp only [List.map_cons, List.map_nil, List.flatMap_cons, List.flatMap_nil,
      List.append_nil]
    rw [count_pair_cons, count_pair_cons, List.count_nil]
    simp only [Prod.ext_iff]
    push_cast
    split_ifs <;> omega

/-- Peeling the outermost ring off the visible-column enumeration. -/
theorem visible_succ (D : ℕ) (cu cw : ℤ) :
    visible_chunk_range_uw (D + 1) cu cw =
      visible_chunk_range_uw D cu cw ++
      ((((List.range (2 * D + 3)).map fun i : ℕ => -((D : ℤ) + 1) + (i : ℤ)).flatMap fun x =>
          [(x + cu, ((D : ℤ) + 1) + cw), (x + cu, -((D : ℤ) + 1) + cw)]) ++
       (((List.range (2 * D + 1)).map fun i : ℕ => -(D : ℤ) + (i : ℤ)).flatMap fun z =>
          [(((D : ℤ) + 1) + cu, z + cw), (-((D : ℤ) + 1) + cu, z + cw)])) := by
  rw [visible_chunk_range_uw, visible_chunk_range_uw, List.range_succ, List.flatMap_append,
    List.flatMap_cons, List.flatMap_nil, List.append_nil, ← List.append_assoc]
  congr 1
  simp only [intRangeIncl, intRangeExcl]
  have e1 : ((D : ℤ) + 1 + 1 - -((D : ℤ) + 1)).toNat = 2 * D + 3 := by omega
  have e2 : ((D : ℤ) + 1 - -((D : ℤ) + 1 - 1)).toNat = 2 * D + 1 := by omega
  rw [e1, e2]
  have e3 : (fun i : ℕ => -((D : ℤ) + 1 - 1) + (i : ℤ)) = fun i : ℕ => -(D : ℤ) + (i : ℤ) := by
    funext i
    norm_num
  rw [e3]

/-- The visible-column list holds each key whose Chebyshev distance from
the camera column is at most the view distance exactly once, and no other
key. -/
theorem count_visible (D : ℕ) (cu cw : ℤ) (p : ℤ × ℤ) :
    (visible_chunk_range_uw D cu cw).count p =
      if chebDist p (cu, cw) ≤ D then 1 else 0 := by
  induction D with
  | zero =>
    rw [visible_chunk_range_uw]
    simp only [List.range_zero, List.flatMap_nil, List.append_nil, List.cons_append,
      List.nil_append]
    rw [count_pair_cons, List.count_nil]
    simp only [chebDist, Prod.ext_iff]
    split_ifs <;> omega
  | succ D ih =>
    rw [visible_succ, List.count_append, List.count_append, ih,
      count_row_pairs p cu cw (-((D : ℤ) + 1)) ((D : ℤ) + 1) (2 * D + 3) (by omega),
      count_col_pairs p cu cw (-(D : ℤ)) ((D : ℤ) + 1) (2 * D + 1) (by omega)]
    simp only [chebDist]
    push_cast
    split_ifs <;> omega

theorem length_pairs_flatMap {α β : Type _} (l : List α) (f g : α → β) :
    (l.flatMap fun x => [f x, g x]).length = 2 * l.length := by
  induction l with
  | nil => rfl
  | cons a t ih =>
    rw [List.flatMap_cons, List.length_append, ih, List.length_cons]
    simp
    omega

/-- The visible-column list has exactly `(2D+1)^2` entries. -/
theorem length_visible (D : ℕ) (cu cw : ℤ) :
    (visible_chunk_range_uw D cu cw).length = (2 * D + 1) ^ 2 := by
  induction D with
  | zero => rfl
  | succ D ih =>
    rw [visible_succ, List.length_append, ih, List.length_append,
      length_pairs_flatMap, length_pairs_flatMap]
    simp only [List.length_map, List.length_range]
    have e2 : 2 * (D + 1) + 1 = (2 * D + 1) + 2 := by ring
    have e : ((2 * D + 1) + 2) ^ 2 = (2 * D + 1) ^ 2 + 4 * (2 * D + 1) + 4 := by ring
    rw [e2, e]
    generalize (2 * D + 1) ^ 2 = s
    omega

theorem sorted_of_const (k : ℕ) : ∀ l : List ℕ, (∀ a ∈ l, a = k) → l.Sorted (· ≤ ·) := by
  intro l
  induction l with
  | nil => intro _; simp
  | cons a t ih =>
    intro h
    rw [List.sorted_cons]
    refine ⟨fun b hb => ?_, ih fun b hb => h b (List.mem_cons_of_mem a hb)⟩
    rw [h a (List.mem_cons_self a t), h b (List.mem_cons_of_mem a hb)]

/-- The visible-column list is ordered by nondecreasing Chebyshev
distance, and every entry lies within distance `D`. -/
theorem sorted_and_bounded_visible (D : ℕ) (cu cw : ℤ) :
    ((visible_chunk_range_uw D cu cw).map fun q => chebDist q (cu, cw)).Sorted (· ≤ ·) ∧
    ∀ q ∈ visible_chunk_range_uw D cu cw, chebDist q (cu, cw) ≤ D := by
  induction D with
  | zero =>
    constructor
    · rw [visible_chunk_range_uw]
      simp
    · intro q hq
      rw [visible_chunk_range_uw] at hq
      simp only [List.range_zero, List.flatMap_nil, List.append_nil, List.cons_append,
        List.nil_append, List.mem_singleton] at hq
      subst hq
      simp [chebDist]
  | succ D ih =>
    have hring : ∀ q ∈ (((List.range (2 * D + 3)).map
          fun i : ℕ => -((D : ℤ) + 1) + (i : ℤ)).flatMap fun x =>
          [(x + cu, ((D : ℤ) + 1) + cw), (x + cu, -((D : ℤ) + 1) + cw)]) ++
        (((List.range (2 * D + 1)).map fun i : ℕ => -(D : ℤ) + (i : ℤ)).flatMap fun z =>
          [(((D : ℤ) + 1) + cu, z + cw), (-((D : ℤ) + 1) + cu, z + cw)]),
        chebDist q (cu, cw) = D + 1 := by
      intro q hq
      rw [List.mem_append] at hq
      rcases hq with hq | hq
      · have hc := (List.count_pos_iff (a := q)).2 hq
        rw [count_row_pairs q cu cw (-((D : ℤ) + 1)) ((D : ℤ) + 1) (2 * D + 3) (by omega)] at hc
        simp only [chebDist]
        split_ifs at hc with h
        · push_cast at h
          omega
        · omega
      · have hc := (List.count_pos_iff (a := q)).2 hq
        rw [count_col_pairs q cu cw (-(D : ℤ)) ((D : ℤ) + 1) (2 * D + 1) (by omega)] at hc
        simp only [chebDist]
        split_ifs at hc with h
        · push_cast at h
          omega
        · omega
    constructor
    · rw [visible_succ, List.map_append]
      refine List.pairwise_append.mpr ⟨ih.1, ?_, ?_⟩
      · refine sorted_of_const (D + 1) _ fun a ha => ?_
        rw [List.mem_map] at ha
        obtain ⟨q, hq, rfl⟩ := ha
        exact hring q hq
      · intro a ha b hb
        rw [List.mem_map] at ha hb
        obtain ⟨q, hq, rfl⟩ := ha
        obtain ⟨q', hq', rfl⟩ := hb
        rw [hring q' hq']
        exact le_trans (ih.2 q hq) (Nat.le_succ D)
    · intro q hq
      rw [visible_succ, List.mem_append] at hq
      rcases hq with hq | hq
      · exact le_trans (ih.2 q hq) (Nat.le_succ D)
      · rw [hring q hq]

/-- C6: `visible_chunk_range_uw` returns exactly `(2D+1)^2` column keys,
containing every column within Chebyshev distance `D` of the camera
column exactly once and no other column, ordered by nondecreasing
Chebyshev distance (ring 0, then ring 1, …, up to `D`). -/
theorem C6_visible_chunk_range (D : ℕ) (cu cw : ℤ) (p : ℤ × ℤ) :
    (visible_chunk_range_uw D cu cw).length = (2 * D + 1) ^ 2 ∧
    (visible_chunk_range_uw D cu cw).count p = (if chebDist p (cu, cw) ≤ D then 1 else 0) ∧
    ((visible_chunk_range_uw D cu cw).map fun q => chebDist q (cu, cw)).Sorted (· ≤ ·) :=
  ⟨length_visible D cu cw, count_visible D cu cw p, (sorted_and_bounded_visible D cu cw).1⟩

/-! ## Generation: read/write lemmas on the stack storage -/

theorem CHUNK_WIDTH_I32_eq : CHUNK_WIDTH_I32 = 32 := rfl

theorem validate_iff (x y z : ℤ) :
    validate_chunk_coordinates x y z = true ↔
      (-1 ≤ x ∧ x ≤ 32) ∧ (-1 ≤ y ∧ y ≤ 32) ∧ (-1 ≤ z ∧ z ≤ 32) := by
  rw [validate_chunk_coordinates, decide_eq_true_eq, CHUNK_WIDTH_I32, CHUNK_WIDTH,
    CHUNK_WIDTH_BITS]
  norm_num

theorem chunkIndex_eq (x y z : ℤ) :
    chunkIndex x y z = ((x + 1) * 34 + y + 1) * 34 + z + 1 := by
  rw [chunkIndex, CHUNK_WIDTH_P_I32, CHUNK_WIDTH_P, CHUNK_WIDTH, CHUNK_WIDTH_BITS]
  norm_num

/-- Reading a written chunk cell: the stored block at the written
coordinate, the previous content elsewhere. -/
theorem Chunk.at_write_eq {c : Chunk} {x y z x' y' z' : ℤ} {b : Block}
    (hw : validate_chunk_coordinates x y z = true)
    (hr : validate_chunk_coordinates x' y' z' = true) :
    (c.write x y z b).at x' y' z' =
      if x = x' ∧ y = y' ∧ z = z' then some b else c.at x' y' z' := by
  obtain ⟨⟨hw1, hw2⟩, ⟨hw3, hw4⟩, hw5, hw6⟩ := (validate_iff x y z).mp hw
  obtain ⟨⟨hr1, hr2⟩, ⟨hr3, hr4⟩, hr5, hr6⟩ := (validate_iff x' y' z').mp hr
  rw [Chunk.write, Chunk.at_mut, if_pos hw, Option.getD_some, Chunk.at, Chunk.at, if_pos hr,
    if_pos hr]
  by_cases hc : x = x' ∧ y = y' ∧ z = z'
  · obtain ⟨rfl, rfl, rfl⟩ := hc
    rw [if_pos ⟨rfl, rfl, rfl⟩]
    simp [Function.update_apply]
  · rw [if_neg hc]
    show some (Function.update c.data (chunkIndex x y z).toNat b (chunkIndex x' y' z').toNat) =
      some (c.data (chunkIndex x' y' z').toNat)
    rw [Function.update_apply, if_neg]
    intro he
    apply hc
    rw [chunkIndex_eq, chunkIndex_eq] at he
    refine ⟨?_, ?_, ?_⟩ <;> omega

/-- Writing one cell leaves every other cell's content unchanged. -/
theorem Chunk.at_write_ne {c : Chunk} {x y z x' y' z' : ℤ} {b : Block}
    (hne : ¬(x = x' ∧ y = y' ∧ z = z')) :
    (c.write x y z b).at x' y' z' = c.at x' y' z' := by
  by_cases hw : validate_chunk_coordinates x y z = true
  · by_cases hr : validate_chunk_coordinates x' y' z' = true
    · rw [Chunk.at_write_eq hw hr, if_neg hne]
    · rw [Chunk.at, if_neg hr, Chunk.at, if_neg hr]
  · rw [Chunk.write, Chunk.at_mut, if_neg hw]
    rfl

/-- Reading a stack after storing one voxel into one chunk. -/
theorem read_stackWrite {s : ChunkStack} {v : ℕ} {x y z : ℤ} {b : Block} {v' : ℕ}
    {x' y' z' : ℤ}
    (hw : validate_chunk_coordinates x y z = true)
    (hr : validate_chunk_coordinates x' y' z' = true) :
    (stackWrite s v x y z b).read v' x' y' z' =
      if v' = v ∧ x = x' ∧ y = y' ∧ z = z' then some b else s.read v' x' y' z' := by
  by_cases hv : v' = v
  · subst hv
    show ((Function.update s.chunks v' ((s.chunks v').write x y z b)) v').at x' y' z' = _
    rw [Function.update_same, Chunk.at_write_eq hw hr]
    by_cases hc : x = x' ∧ y = y' ∧ z = z'
    · rw [if_pos hc, if_pos ⟨rfl, hc⟩]
    · rw [if_neg hc, if_neg fun hcc => hc hcc.2]
      rfl
  · show ((Function.update s.chunks v ((s.chunks v).write x y z b)) v').at x' y' z' = _
    rw [Function.update_noteq hv, if_neg fun hcc => hv hcc.1]
    rfl

theorem read_stackWrite_ne {s : ChunkStack} {v : ℕ} {x y z : ℤ} {b : Block} {v' : ℕ}
    {x' y' z' : ℤ} (hne : ¬(v' = v ∧ x = x' ∧ y = y' ∧ z = z')) :
    (stackWrite s v x y z b).read v' x' y' z' = s.read v' x' y' z' := by
  by_cases hv : v' = v
  · subst hv
    show ((Function.update s.chunks v' ((s.chunks v').write x y z b)) v').at x' y' z' = _
    rw [Function.update_same, Chunk.at_write_ne fun hc => hne ⟨rfl, hc⟩]
    rfl
  · show ((Function.update s.chunks v ((s.chunks v).write x y z b)) v').at x' y' z' = _
    rw [Function.update_noteq hv]
    rfl

/-- Characterisation of `targetGy` as a disjunction of linear facts. -/
theorem targetGy_eq_some_iff (v' : ℕ) (y' : ℤ) (hv' : v' < 8) (hy' : -1 ≤ y' ∧ y' ≤ 32)
    (gy : ℕ) :
    targetGy v' y' = some gy ↔
      ((0 ≤ y' ∧ y' < 32) ∧ gy = 32 * v' + y'.toNat) ∨
      (y' = 32 ∧ gy = 32 * (v' + 1)) ∨
      (y' = -1 ∧ 1 ≤ v' ∧ gy = 32 * v' - 1) := by
  rw [targetGy, CHUNK_WIDTH_I32_eq, CHUNK_WIDTH_eq]
  split_ifs <;> simp <;> omega

theorem VERTICAL_CHUNK_COUNT_eq : VERTICAL_CHUNK_COUNT = 8 := rfl

theorem SEA_LEVEL_eq : SEA_LEVEL = 24 := rfl

theorem expectedBlock_eq_stone {h gy : ℕ} (hlt : gy < h) : expectedBlock h gy = .STONE := by
  simp only [expectedBlock, SEA_LEVEL_eq]
  split_ifs <;> first | rfl | (exfalso; omega)

theorem expectedBlock_eq_sand {h : ℕ} (hsea : h < 24) : expectedBlock h h = .SAND := by
  simp only [expectedBlock, SEA_LEVEL_eq]
  split_ifs <;> first | rfl | (exfalso; omega)

theorem expectedBlock_eq_water {h gy : ℕ} (hsea : h < 24) (h1 : h < gy) (h2 : gy < 24) :
    expectedBlock h gy = .WATER := by
  simp only [expectedBlock, SEA_LEVEL_eq]
  split_ifs <;> first | rfl | (exfalso; omega)

theorem expectedBlock_eq_grass {h : ℕ} (hsea : 24 ≤ h) : expectedBlock h h = .GRASS := by
  simp only [expectedBlock, SEA_LEVEL_eq]
  split_ifs <;> first | rfl | (exfalso; omega)

theorem expectedBlock_eq_air {h gy : ℕ} (h1 : h < gy) (h2 : 24 ≤ gy) :
    expectedBlock h gy = .AIR := by
  simp only [expectedBlock, SEA_LEVEL_eq]
  split_ifs <;> first | rfl | (exfalso; omega)

/-- Reading any valid stack position after one `insert_into_chunk_stack`:
the inserted block exactly when the position is targeted (directly or via
a halo mirror) by the inserted global height, the old content otherwise. -/
theorem read_insert {s : ChunkStack} {x z : ℤ} {gy : ℕ} {b : Block} {v' : ℕ} {x' y' z' : ℤ}
    (hx : -1 ≤ x ∧ x ≤ 32) (hz : -1 ≤ z ∧ z ≤ 32) (hgy : gy < 256) (hv' : v' < 8)
    (hx' : -1 ≤ x' ∧ x' ≤ 32) (hy' : -1 ≤ y' ∧ y' ≤ 32) (hz' : -1 ≤ z' ∧ z' ≤ 32) :
    (insert_into_chunk_stack s x gy z b).read v' x' y' z' =
      if x = x' ∧ z = z' ∧ targetGy v' y' = some gy then some b
      else s.read v' x' y' z' := by
  have hw1 : validate_chunk_coordinates x ((gy % 32 : ℕ) : ℤ) z = true :=
    (validate_iff _ _ _).mpr ⟨hx, ⟨by omega, by omega⟩, hz⟩
  have hw2 : validate_chunk_coordinates x 32 z = true :=
    (validate_iff _ _ _).mpr ⟨hx, ⟨by omega, by omega⟩, hz⟩
  have hw3 : validate_chunk_coordinates x (-1) z = true :=
    (validate_iff _ _ _).mpr ⟨hx, ⟨by omega, by omega⟩, hz⟩
  have hr : validate_chunk_coordinates x' y' z' = true :=
    (validate_iff _ _ _).mpr ⟨hx', hy', hz'⟩
  simp only [insert_into_chunk_stack, CHUNK_WIDTH_eq, CHUNK_WIDTH_I32_eq,
    VERTICAL_CHUNK_COUNT_eq]
  rw [if_pos (show gy / 32 < 8 by omega)]
  simp only [targetGy_eq_some_iff v' y' hv' hy']
  by_cases h1 : gy % 32 = 0 ∧ 0 < gy / 32
  · rw [if_pos h1, read_stackWrite hw2 hr, read_stackWrite hw1 hr]
    split_ifs <;> first | rfl | (exfalso; omega)
  · rw [if_neg h1]
    by_cases h2 : gy % 32 = 32 - 1 ∧ gy / 32 < 8 - 1
    · rw [if_pos h2, read_stackWrite hw3 hr, read_stackWrite hw1 hr]
      split_ifs <;> first | rfl | (exfalso; omega)
    · rw [if_neg h2, read_stackWrite hw1 hr]
      split_ifs <;> first | rfl | (exfalso; omega)

/-- An insert at a different `(x, z)` cell leaves a position unchanged. -/
theorem read_insert_ne {s : ChunkStack} {x z : ℤ} {gy : ℕ} {b : Block} {v' : ℕ}
    {x' y' z' : ℤ} (hne : ¬(x = x' ∧ z = z')) :
    (insert_into_chunk_stack s x gy z b).read v' x' y' z' = s.read v' x' y' z' := by
  have h' : ∀ (v₀ : ℕ) (y₀ : ℤ), ¬(v' = v₀ ∧ x = x' ∧ y₀ = y' ∧ z = z') :=
    fun v₀ y₀ hc => hne ⟨hc.2.1, hc.2.2.2⟩
  simp only [insert_into_chunk_stack]
  split_ifs
  · rw [read_stackWrite_ne (h' _ _), read_stackWrite_ne (h' _ _)]
  · rw [read_stackWrite_ne (h' _ _), read_stackWrite_ne (h' _ _)]
  · rw [read_stackWrite_ne (h' _ _)]
  · rfl

theorem rangeWrites_succ (a n : ℕ) (blk : Block) :
    rangeWrites a (n + 1) blk = rangeWrites a n blk ++ [(a + n, blk)] := by
  rw [rangeWrites, rangeWrites, List.range_succ, List.map_append]
  rfl

/-- Reading after a contiguous run of same-block inserts. -/
theorem read_foldl_rangeWrites {x z : ℤ} {a : ℕ} (n : ℕ) {blk : Block} {v' : ℕ}
    {x' y' z' : ℤ} {s : ChunkStack}
    (hx : -1 ≤ x ∧ x ≤ 32) (hz : -1 ≤ z ∧ z ≤ 32) (hv' : v' < 8)
    (hx' : -1 ≤ x' ∧ x' ≤ 32) (hy' : -1 ≤ y' ∧ y' ≤ 32) (hz' : -1 ≤ z' ∧ z' ≤ 32)
    (han : a + n ≤ 256) :
    ((rangeWrites a n blk).foldl (fun s w => insert_into_chunk_stack s x w.1 z w.2) s).read
        v' x' y' z' =
      if x = x' ∧ z = z' ∧ ∃ gy, targetGy v' y' = some gy ∧ a ≤ gy ∧ gy < a + n
      then some blk else s.read v' x' y' z' := by
  revert han
  induction n with
  | zero =>
    intro han
    rw [rangeWrites]
    simp only [List.range_zero, List.map_nil, List.foldl_nil]
    rw [if_neg]
    rintro ⟨-, -, gy, -, hg1, hg2⟩
    omega
  | succ n ih =>
    intro han
    rw [rangeWrites_succ, List.foldl_append]
    simp only [List.foldl_cons, List.foldl_nil]
    rw [read_insert hx hz (by omega) hv' hx' hy' hz', ih (by omega)]
    rcases htg : targetGy v' y' with _ | gy0
    · rw [if_neg (by rintro ⟨-, -, hgg⟩; simp [htg] at hgg),
        if_neg (by rintro ⟨-, -, gy, hgg, -⟩; simp [htg] at hgg),
        if_neg (by rintro ⟨-, -, gy, hgg, -⟩; simp [htg] at hgg)]
    · simp only [htg, Option.some.injEq, exists_eq_left']
      split_ifs <;> first | rfl | (exfalso; omega)

/-- Folding any write list for a different `(x, z)` cell leaves a
position unchanged. -/
theorem read_foldl_inserts_ne {x z : ℤ} (L : List (ℕ × Block)) {v' : ℕ} {x' y' z' : ℤ}
    (hne : ¬(x = x' ∧ z = z')) :
    ∀ s : ChunkStack,
      (L.foldl (fun s w => insert_into_chunk_stack s x w.1 z w.2) s).read v' x' y' z' =
        s.read v' x' y' z' := by
  induction L with
  | nil => intro s; rfl
  | cons w t ih =>
    intro s
    rw [List.foldl_cons, ih, read_insert_ne hne]

/-- Updating the height map does not change any voxel read. -/
theorem read_set_hm {s : ChunkStack} {hm : ℕ → ℕ} {v : ℕ} {x y z : ℤ} :
    ChunkStack.read { s with height_map := hm } v x y z = s.read v x y z := rfl

/-- Reading a position no global height targets after a cell fill. -/
theorem read_fillCell_none {x z : ℤ} {hgt : ℕ} {v' : ℕ} {x' y' z' : ℤ} {s : ChunkStack}
    (hx : -1 ≤ x ∧ x ≤ 32) (hz : -1 ≤ z ∧ z ≤ 32) (hv' : v' < 8)
    (hx' : -1 ≤ x' ∧ x' ≤ 32) (hy' : -1 ≤ y' ∧ y' ≤ 32) (hz' : -1 ≤ z' ∧ z' ≤ 32)
    (hh : hgt ≤ 255) (htg : targetGy v' y' = none) :
    (fillCell x z hgt s).read v' x' y' z' = s.read v' x' y' z' := by
  have hno : ∀ P : ℕ → Prop, ¬(x = x' ∧ z = z' ∧ ∃ gy, targetGy v' y' = some gy ∧ P gy) := by
    rintro P ⟨-, -, gy, hgg, -⟩
    rw [htg] at hgg
    exact Option.noConfusion hgg
  rw [fillCell, columnWrites]
  by_cases hsea : hgt < SEA_LEVEL
  · rw [if_pos hsea, List.foldl_append, List.foldl_append,
      read_foldl_rangeWrites _ hx hz hv' hx' hy' hz' (by rw [SEA_LEVEL_eq]; omega),
      if_neg (hno _),
      read_foldl_rangeWrites _ hx hz hv' hx' hy' hz' (by omega), if_neg (hno _),
      read_foldl_rangeWrites _ hx hz hv' hx' hy' hz' (by omega), if_neg (hno _)]
  · rw [if_neg hsea, List.foldl_append,
      read_foldl_rangeWrites _ hx hz hv' hx' hy' hz' (by omega), if_neg (hno _),
      read_foldl_rangeWrites _ hx hz hv' hx' hy' hz' (by omega), if_neg (hno _)]

/-- Reading a targeted position after a cell fill: the expected block of
the targeted global height when it was written, the old content above the
filled range. -/
theorem read_fillCell_some {x z : ℤ} {hgt : ℕ} {v' : ℕ} {x' y' z' : ℤ} {gy : ℕ}
    {s : ChunkStack}
    (hx : -1 ≤ x ∧ x ≤ 32) (hz : -1 ≤ z ∧ z ≤ 32) (hv' : v' < 8)
    (hx' : -1 ≤ x' ∧ x' ≤ 32) (hy' : -1 ≤ y' ∧ y' ≤ 32) (hz' : -1 ≤ z' ∧ z' ≤ 32)
    (hh : hgt ≤ 255) (htg : targetGy v' y' = some gy) :
    (fillCell x z hgt s).read v' x' y' z' =
      if x = x' ∧ z = z' ∧ (gy ≤ hgt ∨ gy < 24) then some (expectedBlock hgt gy)
      else s.read v' x' y' z' := by
  rw [fillCell, columnWrites]
  by_cases hsea : hgt < SEA_LEVEL
  · have hsea24 : hgt < 24 := by rw [SEA_LEVEL_eq] at hsea; omega
    rw [if_pos hsea, List.foldl_append, List.foldl_append,
      read_foldl_rangeWrites _ hx hz hv' hx' hy' hz' (by rw [SEA_LEVEL_eq]; omega),
      read_foldl_rangeWrites _ hx hz hv' hx' hy' hz' (by omega),
      read_foldl_rangeWrites _ hx hz hv' hx' hy' hz' (by omega)]
    simp only [htg, Option.some.injEq, exists_eq_left', SEA_LEVEL_eq]
    split_ifs <;>
      first
        | rfl
        | (exfalso; omega)
        | rw [expectedBlock_eq_water hsea24 (by omega) (by omega)]
        | (have hgyeq : gy = hgt := by omega
           subst hgyeq
           rw [expectedBlock_eq_sand hsea24])
        | rw [expectedBlock_eq_stone (by omega)]
  · have hsea24 : 24 ≤ hgt := by rw [SEA_LEVEL_eq] at hsea; omega
    rw [if_neg hsea, List.foldl_append,
      read_foldl_rangeWrites _ hx hz hv' hx' hy' hz' (by omega),
      read_foldl_rangeWrites _ hx hz hv' hx' hy' hz' (by omega)]
    simp only [htg, Option.some.injEq, exists_eq_left']
    split_ifs <;>
      first
        | rfl
        | (exfalso; omega)
        | (have hgyeq : gy = hgt := by omega
           subst hgyeq
           rw [expectedBlock_eq_grass hsea24])
        | rw [expectedBlock_eq_stone (by omega)]

/-- Processing a different cell leaves a position of cell `(x, z)`
unchanged. -/
theorem read_processCell_ne {powf noise : ℚ → ℚ → ℚ} {uw : ℤ × ℤ} {c : ℤ × ℤ}
    {s : ChunkStack} {v' : ℕ} {x' y' z' : ℤ} (hne : ¬(c.1 = x' ∧ c.2 = z')) :
    (processCell powf noise uw c s).read v' x' y' z' = s.read v' x' y' z' := by
  simp only [processCell]
  split_ifs
  · rw [read_set_hm, fillCell] at *
    exact read_foldl_inserts_ne _ hne _
  · rw [fillCell]
    exact read_foldl_inserts_ne _ hne _

/-- Processing cell `(x, z)` on a stack whose `(x, z)` column is still in
its initial all-Air state (or already fully generated) leaves the fully
generated column value there. -/
theorem read_processCell_absorb {powf noise : ℚ → ℚ → ℚ} {uw : ℤ × ℤ} {x z : ℤ}
    {s : ChunkStack} {v' : ℕ} {y' : ℤ}
    (hx : -1 ≤ x ∧ x ≤ 32) (hz : -1 ≤ z ∧ z ≤ 32) (hv' : v' < 8) (hy' : -1 ≤ y' ∧ y' ≤ 32)
    (hh : heightAt powf noise (noiseCoord uw.1 x) (noiseCoord uw.2 z) ≤ 255)
    (hs : s.read v' x y' z = some Block.AIR ∨
      s.read v' x y' z = some (stackCellValue
        (heightAt powf noise (noiseCoord uw.1 x) (noiseCoord uw.2 z)) v' y')) :
    (processCell powf noise uw (x, z) s).read v' x y' z =
      some (stackCellValue (heightAt powf noise (noiseCoord uw.1 x) (noiseCoord uw.2 z))
        v' y') := by
  have hread : (processCell powf noise uw (x, z) s).read v' x y' z =
      (fillCell x z (heightAt powf noise (noiseCoord uw.1 x) (noiseCoord uw.2 z)) s).read
        v' x y' z := by
    simp only [processCell]
    split_ifs <;> rfl
  rw [hread]
  rcases htg : targetGy v' y' with _ | gy
  · rw [read_fillCell_none hx hz hv' hx hy' hz hh htg]
    rcases hs with h | h
    · rw [h]
      simp [stackCellValue, htg]
    · rw [h]
  · rw [read_fillCell_some hx hz hv' hx hy' hz hh htg]
    by_cases hW : gy ≤ heightAt powf noise (noiseCoord uw.1 x) (noiseCoord uw.2 z) ∨ gy < 24
    · rw [if_pos ⟨rfl, rfl, hW⟩]
      simp [stackCellValue, htg]
    · rw [if_neg fun hcon => hW hcon.2.2]
      have hair : expectedBlock (heightAt powf noise (noiseCoord uw.1 x) (noiseCoord uw.2 z))
          gy = .AIR := expectedBlock_eq_air (by omega) (by omega)
      rcases hs with h | h
      · rw [h]
        simp [stackCellValue, htg, hair]
      · rw [h]

/-- The per-target invariant carried through the generator's cell fold:
the target position is Air until its cell is processed, and holds the
fully generated column value from then on. -/
theorem read_foldl_cells {powf noise : ℚ → ℚ → ℚ} {uw : ℤ × ℤ} {x z : ℤ}
    {v' : ℕ} {y' : ℤ}
    (hx : -1 ≤ x ∧ x ≤ 32) (hz : -1 ≤ z ∧ z ≤ 32) (hv' : v' < 8) (hy' : -1 ≤ y' ∧ y' ≤ 32)
    (hh : heightAt powf noise (noiseCoord uw.1 x) (noiseCoord uw.2 z) ≤ 255) :
    ∀ (L : List (ℤ × ℤ)) (s : ChunkStack),
      (s.read v' x y' z = some Block.AIR ∨
        s.read v' x y' z = some (stackCellValue
          (heightAt powf noise (noiseCoord uw.1 x) (noiseCoord uw.2 z)) v' y')) →
      ((L.foldl (fun s c => processCell powf noise uw c s) s).read v' x y' z =
          some Block.AIR ∨
        (L.foldl (fun s c => processCell powf noise uw c s) s).read v' x y' z =
          some (stackCellValue
            (heightAt powf noise (noiseCoord uw.1 x) (noiseCoord uw.2 z)) v' y')) ∧
      (((x, z) ∈ L ∨ s.read v' x y' z = some (stackCellValue
          (heightAt powf noise (noiseCoord uw.1 x) (noiseCoord uw.2 z)) v' y')) →
        (L.foldl (fun s c => processCell powf noise uw c s) s).read v' x y' z =
          some (stackCellValue
            (heightAt powf noise (noiseCoord uw.1 x) (noiseCoord uw.2 z)) v' y')) := by
  intro L
  induction L with
  | nil =>
    intro s hs
    simp only [List.foldl_nil]
    refine ⟨hs, fun hor => ?_⟩
    rcases hor with h | h
    · exact absurd h (List.not_mem_nil _)
    · exact h
  | cons c t ih =>
    intro s hs
    simp only [List.foldl_cons]
    by_cases hc : c = (x, z)
    · subst hc
      have habs := read_processCell_absorb hx hz hv' hy' hh hs
      have hrest := ih _ (Or.inr habs)
      exact ⟨hrest.1, fun _ => hrest.2 (Or.inr habs)⟩
    · have hne : ¬(c.1 = x ∧ c.2 = z) := by
        rintro ⟨h1, h2⟩
        exact hc (Prod.ext h1 h2)
      have hfr : (processCell powf noise uw c s).read v' x y' z = s.read v' x y' z :=
        read_processCell_ne hne
      have hrest := ih (processCell powf noise uw c s) (by rw [hfr]; exact hs)
      refine ⟨hrest.1, fun hor => hrest.2 ?_⟩
      rcases hor with hmem | hE
      · rcases List.mem_cons.mp hmem with he | ht
        · exact absurd he.symm hc
        · exact Or.inl ht
      · refine Or.inr ?_
        rw [hfr]
        exact hE

theorem mem_cellList {x z : ℤ} (hx : -1 ≤ x ∧ x ≤ 32) (hz : -1 ≤ z ∧ z ≤ 32) :
    (x, z) ∈ cellList := by
  rw [cellList]
  simp only [List.mem_flatMap, List.mem_map, List.mem_range]
  refine ⟨(x + 1).toNat, by rw [CHUNK_WIDTH_eq]; omega,
    (z + 1).toNat, by rw [CHUNK_WIDTH_eq]; omega, ?_⟩
  simp only [Prod.mk.injEq]
  constructor <;> omega

/-- Master characterisation: any valid position of a generated stack
holds exactly the column value determined by the cell's height. -/
theorem read_generate_stack (powf noise : ℚ → ℚ → ℚ) (uw : ℤ × ℤ) {x z : ℤ} {v' : ℕ}
    {y' : ℤ}
    (hx : -1 ≤ x ∧ x ≤ 32) (hz : -1 ≤ z ∧ z ≤ 32) (hv' : v' < 8) (hy' : -1 ≤ y' ∧ y' ≤ 32)
    (hh : heightAt powf noise (noiseCoord uw.1 x) (noiseCoord uw.2 z) ≤ 255) :
    (generate_stack powf noise uw).read v' x y' z =
      some (stackCellValue (heightAt powf noise (noiseCoord uw.1 x) (noiseCoord uw.2 z))
        v' y') := by
  have hinit : (initialStack uw).read v' x y' z = some Block.AIR := by
    show Chunk.at ⟨fun _ => Block.AIR⟩ x y' z = some Block.AIR
    rw [Chunk.at, if_pos ((validate_iff x y' z).mpr ⟨hx, hy', hz⟩)]
  rw [generate_stack]
  exact (read_foldl_cells hx hz hv' hy' hh cellList (initialStack uw) (Or.inl hinit)).2
    (Or.inl (mem_cellList hx hz))

theorem targetGy_interior (v : ℕ) (y : ℤ) (h0 : 0 ≤ y) (h1 : y < 32) :
    targetGy v y = some (CHUNK_WIDTH * v + y.toNat) := by
  rw [targetGy, if_pos ⟨h0, by rw [CHUNK_WIDTH_I32_eq]; omega⟩]

theorem targetGy_top (v : ℕ) : targetGy v CHUNK_WIDTH_I32 = some (CHUNK_WIDTH * (v + 1)) := by
  rw [targetGy, if_neg (by rw [CHUNK_WIDTH_I32_eq]; omega), if_pos rfl]

theorem targetGy_bottom (v : ℕ) (hv : 1 ≤ v) :
    targetGy v (-1) = some (CHUNK_WIDTH * v - 1) := by
  rw [targetGy, if_neg (by rw [CHUNK_WIDTH_I32_eq]; omega),
    if_neg (by rw [CHUNK_WIDTH_I32_eq]; omega), if_pos ⟨rfl, hv⟩]

/-! ## C1 — the generated column layers -/

/-- C1: for every generated column and cell `(x, z)` in `[-1, CHUNK_WIDTH]`,
with `h` the height computed for that cell: global heights in `[0, h)` are
Stone; if `h < SEA_LEVEL` the voxel at `h` is Sand and those in
`(h, SEA_LEVEL)` are Water, otherwise the voxel at `h` is Grass; all
voxels above remain Air.  (Global height `gy` lives in chunk
`gy / CHUNK_WIDTH` at local height `gy % CHUNK_WIDTH`; the height bound
`h ≤ 255` always holds for the actual `f64` pipeline, whose noise output
lies in `[-1, 1]`.) -/
theorem C1_generated_column_layers (powf noise : ℚ → ℚ → ℚ) (uw : ℤ × ℤ) (x z : ℤ)
    (gy : ℕ) (hx : -1 ≤ x ∧ x ≤ 32) (hz : -1 ≤ z ∧ z ≤ 32) (hgy : gy < 256)
    (hh : heightAt powf noise (noiseCoord uw.1 x) (noiseCoord uw.2 z) ≤ 255) :
    let h := heightAt powf noise (noiseCoord uw.1 x) (noiseCoord uw.2 z)
    let r := (generate_stack powf noise uw).read (gy / CHUNK_WIDTH) x
      ((gy % CHUNK_WIDTH : ℕ) : ℤ) z
    (gy < h → r = some .STONE) ∧
    (h < SEA_LEVEL → gy = h → r = some .SAND) ∧
    (h < SEA_LEVEL → h < gy → gy < SEA_LEVEL → r = some .WATER) ∧
    (SEA_LEVEL ≤ h → gy = h → r = some .GRASS) ∧
    (h < gy → SEA_LEVEL ≤ gy → r = some .AIR) := by
  intro h r
  have hr : r = some (expectedBlock h gy) := by
    show (generate_stack powf noise uw).read (gy / CHUNK_WIDTH) x
      ((gy % CHUNK_WIDTH : ℕ) : ℤ) z = _
    rw [read_generate_stack powf noise uw hx hz (by rw [CHUNK_WIDTH_eq]; omega)
      ⟨by rw [CHUNK_WIDTH_eq]; omega, by rw [CHUNK_WIDTH_eq]; omega⟩ hh]
    have htg : targetGy (gy / CHUNK_WIDTH) ((gy % CHUNK_WIDTH : ℕ) : ℤ) = some gy := by
      rw [targetGy_interior _ _ (by omega) (by rw [CHUNK_WIDTH_eq]; omega)]
      congr 1
      rw [CHUNK_WIDTH_eq]
      omega
    simp only [stackCellValue, htg]
  refine ⟨?_, ?_, ?_, ?_, ?_⟩
  · intro hlt
    rw [hr, expectedBlock_eq_stone hlt]
  · intro hsea hgyh
    rw [hr, hgyh, expectedBlock_eq_sand hsea]
  · intro hsea h1 h2
    rw [hr, expectedBlock_eq_water hsea h1 h2]
  · intro hsea hgyh
    rw [hr, hgyh, expectedBlock_eq_grass hsea]
  · intro h1 h2
    rw [hr, expectedBlock_eq_air h1 h2]

/-- Witness for C1 at constant-zero noise and `powf`, where the computed
height is `MIN_HEIGHT = 8`, so global height 0 is Stone. -/
theorem C1_witness :
    ((-1 ≤ (0 : ℤ) ∧ (0 : ℤ) ≤ 32) ∧ (-1 ≤ (0 : ℤ) ∧ (0 : ℤ) ≤ 32) ∧ (0 : ℕ) < 256 ∧
      heightAt (fun _ _ => 0) (fun _ _ => 0) (noiseCoord 0 0) (noiseCoord 0 0) ≤ 255 ∧
      0 < heightAt (fun _ _ => 0) (fun _ _ => 0) (noiseCoord 0 0) (noiseCoord 0 0)) ∧
    (generate_stack (fun _ _ => 0) (fun _ _ => 0) (0, 0)).read 0 0 0 0 =
      some Block.STONE :=
  ⟨⟨by norm_num, by norm_num, by norm_num,
    by simp [heightAt, heightExponent, noiseCoord, MIN_HEIGHT],
    by simp [heightAt, heightExponent, noiseCoord, MIN_HEIGHT]⟩,
    (C1_generated_column_layers (fun _ _ => 0) (fun _ _ => 0) (0, 0) 0 0 0
      ⟨by norm_num, by norm_num⟩ ⟨by norm_num, by norm_num⟩ (by norm_num)
      (by simp [heightAt, heightExponent, noiseCoord, MIN_HEIGHT])).1
      (by simp [heightAt, heightExponent, noiseCoord, MIN_HEIGHT])⟩

/-! ## C4 — vertical halo consistency inside a stack -/

/-- C4: in every generated stack, for vertically adjacent chunks `v` and
`v+1` and every cell `(x, z)` in `[-1, CHUNK_WIDTH]`, chunk `v`'s
`y = CHUNK_WIDTH` halo cell equals chunk `v+1`'s `y = 0` interior cell,
and chunk `v+1`'s `y = -1` halo cell equals chunk `v`'s
`y = CHUNK_WIDTH - 1` interior cell. -/
theorem C4_vertical_halo_consistency (powf noise : ℚ → ℚ → ℚ) (uw : ℤ × ℤ) (v : ℕ)
    (x z : ℤ) (hv : v < VERTICAL_CHUNK_COUNT - 1)
    (hx : -1 ≤ x ∧ x ≤ 32) (hz : -1 ≤ z ∧ z ≤ 32)
    (hh : heightAt powf noise (noiseCoord uw.1 x) (noiseCoord uw.2 z) ≤ 255) :
    (generate_stack powf noise uw).read v x CHUNK_WIDTH_I32 z =
      (generate_stack powf noise uw).read (v + 1) x 0 z ∧
    (generate_stack powf noise uw).read (v + 1) x (-1) z =
      (generate_stack powf noise uw).read v x (CHUNK_WIDTH_I32 - 1) z := by
  have hv8 : v < 7 := by
    rw [VERTICAL_CHUNK_COUNT_eq] at hv
    omega
  constructor
  · rw [read_generate_stack powf noise uw hx hz (by omega)
        (by rw [CHUNK_WIDTH_I32_eq]; constructor <;> omega) hh,
      read_generate_stack powf noise uw hx hz (by omega) (by norm_num) hh]
    have e : targetGy (v + 1) 0 = some (CHUNK_WIDTH * (v + 1)) := by
      rw [targetGy_interior _ _ le_rfl (by norm_num)]
      norm_num
    simp only [stackCellValue, targetGy_top v, e]
  · rw [read_generate_stack powf noise uw hx hz (by omega)
        (by norm_num) hh,
      read_generate_stack powf noise uw hx hz (by omega)
        (by rw [CHUNK_WIDTH_I32_eq]; constructor <;> omega) hh]
    have e1 : targetGy (v + 1) (-1) = some (CHUNK_WIDTH * (v + 1) - 1) :=
      targetGy_bottom (v + 1) (by omega)
    have e2 : targetGy v (CHUNK_WIDTH_I32 - 1) = some (CHUNK_WIDTH * (v + 1) - 1) := by
      rw [targetGy_interior _ _ (by rw [CHUNK_WIDTH_I32_eq]; omega)
        (by rw [CHUNK_WIDTH_I32_eq]; omega)]
      have eg : CHUNK_WIDTH * v + (CHUNK_WIDTH_I32 - 1).toNat = CHUNK_WIDTH * (v + 1) - 1 := by
        rw [CHUNK_WIDTH_I32_eq, CHUNK_WIDTH_eq]
        omega
      rw [eg]
    simp only [stackCellValue, e1, e2]

/-- Witness for C4 at constant-zero noise and `powf`, chunks 0 and 1. -/
theorem C4_witness :
    ((0 : ℕ) < VERTICAL_CHUNK_COUNT - 1 ∧ (-1 ≤ (0 : ℤ) ∧ (0 : ℤ) ≤ 32) ∧
      (-1 ≤ (0 : ℤ) ∧ (0 : ℤ) ≤ 32) ∧
      heightAt (fun _ _ => 0) (fun _ _ => 0) (noiseCoord 0 0) (noiseCoord 0 0) ≤ 255) ∧
    ((generate_stack (fun _ _ => 0) (fun _ _ => 0) (0, 0)).read 0 0 CHUNK_WIDTH_I32 0 =
        (generate_stack (fun _ _ => 0) (fun _ _ => 0) (0, 0)).read 1 0 0 0 ∧
      (generate_stack (fun _ _ => 0) (fun _ _ => 0) (0, 0)).read 1 0 (-1) 0 =
        (generate_stack (fun _ _ => 0) (fun _ _ => 0) (0, 0)).read 0 0
          (CHUNK_WIDTH_I32 - 1) 0) :=
  ⟨⟨by rw [VERTICAL_CHUNK_COUNT_eq]; omega, ⟨by norm_num, by norm_num⟩,
    ⟨by norm_num, by norm_num⟩,
    by simp [heightAt, heightExponent, noiseCoord, MIN_HEIGHT]⟩,
    C4_vertical_halo_consistency (fun _ _ => 0) (fun _ _ => 0) (0, 0) 0 0 0
      (by rw [VERTICAL_CHUNK_COUNT_eq]; omega) ⟨by norm_num, by norm_num⟩
      ⟨by norm_num, by norm_num⟩
      (by simp [heightAt, heightExponent, noiseCoord, MIN_HEIGHT])⟩

/-! ## C9 — cross-column halo consistency -/

/-- The noise coordinate of a column's `x = CHUNK_WIDTH` halo cell equals
that of the next column's `x = 0` boundary cell. -/
theorem noiseCoord_wrap (u : ℤ) : noiseCoord u CHUNK_WIDTH_I32 = noiseCoord (u + 1) 0 := by
  rw [noiseCoord, noiseCoord, CHUNK_WIDTH_I32_eq, CHUNK_WIDTH_eq]
  push_cast
  ring

/-- C9: for any noise source, the stack generated for column `(u, w)` has
its `x = CHUNK_WIDTH` halo plane equal to the `x = 0` interior plane of
the stack generated for `(u+1, w)`, for every chunk `v` and all
`y, z ∈ [-1, CHUNK_WIDTH]`; and symmetrically along `z` between `(u, w)`
and `(u, w+1)` — because the continuous noise coordinates of the halo
cell and the neighbour's boundary cell coincide exactly. -/
theorem C9_cross_column_halo_consistency (powf noise : ℚ → ℚ → ℚ) (u w : ℤ) (v : ℕ)
    (x y z : ℤ) (hv : v < 8) (hx : -1 ≤ x ∧ x ≤ 32) (hy : -1 ≤ y ∧ y ≤ 32)
    (hz : -1 ≤ z ∧ z ≤ 32)
    (hh1 : heightAt powf noise (noiseCoord u CHUNK_WIDTH_I32) (noiseCoord w z) ≤ 255)
    (hh2 : heightAt powf noise (noiseCoord u x) (noiseCoord w CHUNK_WIDTH_I32) ≤ 255) :
    (generate_stack powf noise (u, w)).read v CHUNK_WIDTH_I32 y z =
      (generate_stack powf noise (u + 1, w)).read v 0 y z ∧
    (generate_stack powf noise (u, w)).read v x y CHUNK_WIDTH_I32 =
      (generate_stack powf noise (u, w + 1)).read v x y 0 := by
  constructor
  · rw [read_generate_stack powf noise (u, w)
        (by rw [CHUNK_WIDTH_I32_eq]; constructor <;> omega) hz hv hy hh1,
      read_generate_stack powf noise (u + 1, w) (by norm_num) hz hv hy
        (by dsimp only; rw [← noiseCoord_wrap]; exact hh1)]
    dsimp only
    rw [noiseCoord_wrap]
  · rw [read_generate_stack powf noise (u, w) hx
        (by rw [CHUNK_WIDTH_I32_eq]; constructor <;> omega) hv hy hh2,
      read_generate_stack powf noise (u, w + 1) hx (by norm_num) hv hy
        (by dsimp only; rw [← noiseCoord_wrap]; exact hh2)]
    dsimp only
    rw [noiseCoord_wrap]

/-- Witness for C9 at constant-zero noise and `powf`, columns `(0, 0)`,
`(1, 0)` and `(0, 1)`. -/
theorem C9_witness :
    ((0 : ℕ) < 8 ∧ (-1 ≤ (0 : ℤ) ∧ (0 : ℤ) ≤ 32) ∧ (-1 ≤ (0 : ℤ) ∧ (0 : ℤ) ≤ 32) ∧
      (-1 ≤ (0 : ℤ) ∧ (0 : ℤ) ≤ 32) ∧
      heightAt (fun _ _ => 0) (fun _ _ => 0) (noiseCoord 0 CHUNK_WIDTH_I32)
        (noiseCoord 0 0) ≤ 255 ∧
      heightAt (fun _ _ => 0) (fun _ _ => 0) (noiseCoord 0 0)
        (noiseCoord 0 CHUNK_WIDTH_I32) ≤ 255) ∧
    ((generate_stack (fun _ _ => 0) (fun _ _ => 0) (0, 0)).read 0 CHUNK_WIDTH_I32 0 0 =
        (generate_stack (fun _ _ => 0) (fun _ _ => 0) (0 + 1, 0)).read 0 0 0 0 ∧
      (generate_stack (fun _ _ => 0) (fun _ _ => 0) (0, 0)).read 0 0 0 CHUNK_WIDTH_I32 =
        (generate_stack (fun _ _ => 0) (fun _ _ => 0) (0, 0 + 1)).read 0 0 0 0) :=
  ⟨⟨by norm_num, ⟨by norm_num, by norm_num⟩, ⟨by norm_num, by norm_num⟩,
    ⟨by norm_num, by norm_num⟩,
    by simp [heightAt, heightExponent, noiseCoord, MIN_HEIGHT, CHUNK_WIDTH_I32, CHUNK_WIDTH,
      CHUNK_WIDTH_BITS],
    by simp [heightAt, heightExponent, noiseCoord, MIN_HEIGHT, CHUNK_WIDTH_I32, CHUNK_WIDTH,
      CHUNK_WIDTH_BITS]⟩,
    C9_cross_column_halo_consistency (fun _ _ => 0) (fun _ _ => 0) 0 0 0 0 0 0
      (by norm_num) ⟨by norm_num, by norm_num⟩ ⟨by norm_num, by norm_num⟩
      ⟨by norm_num, by norm_num⟩
      (by simp [heightAt, heightExponent, noiseCoord, MIN_HEIGHT, CHUNK_WIDTH_I32,
        CHUNK_WIDTH, CHUNK_WIDTH_BITS])
      (by simp [heightAt, heightExponent, noiseCoord, MIN_HEIGHT, CHUNK_WIDTH_I32,
        CHUNK_WIDTH, CHUNK_WIDTH_BITS])⟩

end MC
